import Mathlib

/-!
Verification of the hybrid retrieval and context-assembly engine
(`qa_engine.py`) of the CognifyAI repository.

Scores and timestamps are modelled as rationals; numpy vectors become
`List ℚ`.  A Python exception is modelled as `none` in an `Option` result.
The lexical (BM25) backend is modelled as `Option (List ℚ)`: `some raw`
when `rank_bm25` imported successfully (`_HAS_BM25 = True`) and the raw
per-segment scores are `raw`; `none` when the backend is absent.
The external generation call (`call_llm`) is modelled as an
`Except String String` argument: `Except.ok text` for a successful call and
`Except.error e` for a raised exception with message `e`.
-/

namespace CognifyAI

/-- A transcript segment as stored in `self.segments`: a start time, an end
time (field `stop`, since `end` is reserved) and the chunk text. -/
structure Segment where
  start : ℚ
  stop : ℚ
  text : String
deriving DecidableEq, Repr

instance : Inhabited Segment := ⟨⟨0, 0, ""⟩⟩

/-- One entry of the list built by `LectureQA.retrieve_segments`. -/
structure Retrieved where
  rank : ℕ
  i : ℕ
  start : ℚ
  stop : ℚ
  text : String
  hybrid : ℚ
  cosine : ℚ
  bm25 : ℚ
deriving DecidableEq, Repr

instance : Inhabited Retrieved := ⟨⟨0, 0, 0, 0, "", 0, 0, 0⟩⟩

/-- The dictionary returned by `LectureQA.answer_question`. -/
structure AnswerResult where
  answer : String
  score : ℚ
  timestamp : ℚ
  segments : List Retrieved
  mode : String
deriving DecidableEq, Repr

/-- Model of `config.HYBRID_ALPHA`. -/
def HYBRID_ALPHA : ℚ := 0.65

/-- Model of `config.RETRIEVAL_CANDIDATES`. -/
def RETRIEVAL_CANDIDATES : ℕ := 40

/-- Model of `config.RETRIEVAL_TOPK`. -/
def RETRIEVAL_TOPK : ℕ := 5

/-- Model of `config.NEIGHBOR_WINDOW`. -/
def NEIGHBOR_WINDOW : ℕ := 1

/-- Model of `arr.min()` on a numpy vector (only ever used on non-empty vectors;
the `[]` case is a dummy value). -/
def listMin : List ℚ → ℚ
  | [] => 0
  | x :: xs => xs.foldl min x

/-- Model of `arr.max()` on a numpy vector. -/
def listMax : List ℚ → ℚ
  | [] => 0
  | x :: xs => xs.foldl max x

/-- Model of `qa_engine._normalize`: min-max scaling of a score vector; an empty
vector is returned unchanged and a constant vector (`mx <= mn`) becomes the
all-zero vector of the same length. -/
def normalize (arr : List ℚ) : List ℚ :=
  if arr.isEmpty then arr
  else
    let mn := listMin arr
    let mx := listMax arr
    if mx ≤ mn then List.replicate arr.length 0
    else arr.map (fun x => (x - mn) / (mx - mn))

/-- The raw lexical score vector of `_hybrid_search` (lines 81-86): the
BM25 scores when the backend is present, `np.zeros_like(cos_scores)`
otherwise.  `n` is the length of the cosine score vector. -/
def lexicalScores (bm25 : Option (List ℚ)) (n : ℕ) : List ℚ :=
  match bm25 with
  | some s => s
  | none => List.replicate n 0

/-- The hybrid score vector of `_hybrid_search` (lines 78-88):
`HYBRID_ALPHA * cos_n + (1.0 - HYBRID_ALPHA) * bm_n`, where `cos_n` is the
normalized cosine vector and `bm_n` is the normalized BM25 vector when the
backend is present and `np.zeros_like(cos_scores)` otherwise. -/
def hybridVec (alpha : ℚ) (cos_scores : List ℚ) (bm25 : Option (List ℚ)) : List ℚ :=
  let cos_n := normalize cos_scores
  let bm_n :=
    match bm25 with
    | some s => normalize s
    | none => List.replicate cos_scores.length 0
  List.zipWith (fun c b => alpha * c + (1 - alpha) * b) cos_n bm_n

/-- The total order used to model
`np.argpartition(-hybrid, k-1)[:k]` followed by `np.argsort(-hybrid[idx])`:
descending by hybrid score, ties broken by the lower segment index (one
deterministic refinement of numpy's unspecified tie order). -/
def hybRel (h : List ℚ) (i j : ℕ) : Prop :=
  h.getD j 0 < h.getD i 0 ∨ (h.getD i 0 = h.getD j 0 ∧ i ≤ j)

instance (h : List ℚ) : DecidableRel (hybRel h) := fun i j => by
  unfold hybRel; exact inferInstance

instance (h : List ℚ) : IsTotal ℕ (hybRel h) := by
  constructor
  intro i j
  rcases lt_trichotomy (h.getD i 0) (h.getD j 0) with hlt | heq | hgt
  · exact Or.inr (Or.inl hlt)
  · rcases Nat.le_total i j with hij | hji
    · exact Or.inl (Or.inr ⟨heq, hij⟩)
    · exact Or.inr (Or.inr ⟨heq.symm, hji⟩)
  · exact Or.inl (Or.inl hgt)

instance (h : List ℚ) : IsTrans ℕ (hybRel h) := by
  constructor
  intro i j k hij hjk
  rcases hij with hij | ⟨eij, lij⟩
  · rcases hjk with hjk | ⟨ejk, _⟩
    · exact Or.inl (lt_trans hjk hij)
    · exact Or.inl (ejk ▸ hij)
  · rcases hjk with hjk | ⟨ejk, ljk⟩
    · exact Or.inl (by rw [eij]; exact hjk)
    · exact Or.inr ⟨eij.trans ejk, le_trans lij ljk⟩

/-- The index list produced by `np.argpartition(-hybrid, k-1)[:k]` followed
by `np.argsort(-hybrid[idx])` when it does not raise: the
`k = min(pool_k, n)` highest-scoring indices, sorted descending by hybrid
score with ties broken by lower index. -/
def topIdxList (hybrid : List ℚ) (pool_k : ℕ) : List ℕ :=
  (List.insertionSort (hybRel hybrid) (List.range hybrid.length)).take
    (min pool_k hybrid.length)

/-- The Top-K Selector of `_hybrid_search` (lines 90-92):
`k = min(pool_k, n)`, then `idx = np.argpartition(-hybrid, k - 1)[:k]`
re-ordered by `np.argsort(-hybrid[idx])`.  On an empty score vector
(`n = 0`) the Python `k - 1` is `-1` and `np.argpartition` raises
`ValueError: kth(=-1) out of bounds (0)`, modelled as `none`.  Otherwise it
yields the `k` highest-scoring indices sorted descending by hybrid score. -/
def topKSelect (hybrid : List ℚ) (pool_k : ℕ) : Option (List ℕ) :=
  if hybrid.length = 0 then none
  else some (topIdxList hybrid pool_k)

/-- Model of `LectureQA._hybrid_search`: builds the hybrid score vector, selects the
top pool, and returns `(idx, hybrid[idx], cos_scores[idx], bm_scores[idx])`;
`none` models the numpy exception on an empty corpus. -/
def hybridSearch (alpha : ℚ) (cos_scores : List ℚ) (bm25 : Option (List ℚ))
    (pool_k : ℕ) : Option (List ℕ × List ℚ × List ℚ × List ℚ) :=
  let bm_scores := lexicalScores bm25 cos_scores.length
  let hybrid := hybridVec alpha cos_scores bm25
  match topKSelect hybrid pool_k with
  | none => none
  | some idx =>
    some (idx, idx.map (fun i => hybrid.getD i 0),
      idx.map (fun i => cos_scores.getD i 0),
      idx.map (fun i => bm_scores.getD i 0))

/-- Model of `LectureQA.retrieve_segments`: zips the four arrays returned by
`_hybrid_search` into `Retrieved` records with 1-based ranks and keeps the
first `top_k` (`out[:top_k]`). -/
def retrieveSegments (segments : List Segment) (alpha : ℚ) (cos_scores : List ℚ)
    (bm25 : Option (List ℚ)) (top_k pool_k : ℕ) : Option (List Retrieved) :=
  match hybridSearch alpha cos_scores bm25 pool_k with
  | none => none
  | some (idx, hyb, cosv, bmv) =>
    some (((idx.zip (hyb.zip (cosv.zip bmv))).enum.map (fun p =>
      let seg := segments.getD p.2.1 default
      ({ rank := p.1 + 1, i := p.2.1, start := seg.start, stop := seg.stop,
         text := seg.text, hybrid := p.2.2.1, cosine := p.2.2.2.1,
         bm25 := p.2.2.2.2 } : Retrieved))).take top_k)

/-- The inner loop `for j in range(center - w, center + w + 1)` of
`_expand_neighbors` together with its bounds check
`0 <= j < len(self.segments)`: the in-range indices of the window of radius
`w` around `center`, in increasing order. -/
def windowIdxs (n center w : ℕ) : List ℕ :=
  (List.range (2 * w + 1)).filterMap (fun (d : ℕ) =>
    if 0 ≤ (center : ℤ) - w + d ∧ (center : ℤ) - w + d < (n : ℤ)
    then some ((center : ℤ) - w + (d : ℤ)).toNat else none)

/-- One pass of the window loop over the `picked` dict: each index `j` not
yet present is appended (Python dicts preserve insertion order). -/
def addWindow (acc : List ℕ) : List ℕ → List ℕ
  | [] => acc
  | j :: js => addWindow (if j ∈ acc then acc else acc ++ [j]) js

/-- The keys of the `picked` dict of `_expand_neighbors` after processing
all core segments, in insertion order. -/
def pickedKeys (n w : ℕ) : List ℕ → List ℕ → List ℕ
  | acc, [] => acc
  | acc, c :: cs => pickedKeys n w (addWindow acc (windowIdxs n c w)) cs

/-- The sort key of
`sorted(picked.keys(), key=lambda ix: picked[ix]["start"])`: compare picked
indices by the start time of their segment.  (Python's sort is stable, as
is `List.insertionSort`, and both use the same total preorder, so the
results agree.) -/
def startRel (segments : List Segment) (i j : ℕ) : Prop :=
  (segments.getD i default).start ≤ (segments.getD j default).start

instance (segments : List Segment) : DecidableRel (startRel segments) := fun i j => by
  unfold startRel; exact inferInstance

instance (segments : List Segment) : IsTotal ℕ (startRel segments) := by
  constructor
  intro i j
  exact le_total _ _

instance (segments : List Segment) : IsTrans ℕ (startRel segments) := by
  constructor
  intro i j k
  exact le_trans

/-- Model of `LectureQA._expand_neighbors`, taking the core segments' indices:
collect the windows around each core index into the insertion-ordered
`picked` dict, then order its keys by segment start time.  Each output
entry keeps its index paired with the segment record. -/
def expandNeighbors (segments : List Segment) (w : ℕ) (coreIdx : List ℕ) :
    List (ℕ × Segment) :=
  let keys := pickedKeys segments.length w [] coreIdx
  let ordered := List.insertionSort (startRel segments) keys
  ordered.map (fun j => (j, segments.getD j default))

/-- Model of Python's `min` over a list: raises (`none`) on an empty list. -/
def pyMin (l : List ℚ) : Option ℚ :=
  match l with
  | [] => none
  | x :: xs => some (xs.foldl min x)

/-- The fixed no-match result of `answer_question` (lines 180-187). -/
def noMatchResult : AnswerResult :=
  { answer := "I couldn\x27t find any relevant part in this lecture.",
    score := 0, timestamp := 0, segments := [], mode := "none" }

/-- Model of `LectureQA.answer_question`: retrieve the core segments, short-circuit
with `noMatchResult` when they are empty, expand neighbors, compute the
earliest start of the window, then either use the generation result
(mode `gemini-rag`) or fall back to `windowed[0]["text"]`
(mode `retrieval-only`).  `none` models an uncaught exception. -/
def answerQuestion (segments : List Segment) (alpha : ℚ) (cos_scores : List ℚ)
    (bm25 : Option (List ℚ)) (top_k pool_k w : ℕ) (llm : Except String String) :
    Option AnswerResult :=
  match retrieveSegments segments alpha cos_scores bm25 top_k pool_k with
  | none => none
  | some core =>
    if core.isEmpty then some noMatchResult
    else
      let windowed := expandNeighbors segments w (core.map (fun r => r.i))
      match pyMin (windowed.map (fun p => p.2.start)) with
      | none => none
      | some earliest =>
        match llm with
        | Except.ok txt =>
          some { answer := txt.trim, score := (core.headD default).hybrid,
                 timestamp := earliest, segments := core, mode := "gemini-rag" }
        | Except.error e =>
          some { answer := "(Gemini error: " ++ e ++
                   ")\n\nBest matching transcript snippet:\n\n" ++
                   (windowed.headD (0, default)).2.text,
                 score := (core.headD default).hybrid,
                 timestamp := earliest, segments := core,
                 mode := "retrieval-only" }

/-- Predicate that `needle` occurs verbatim inside `hay`. -/
def containsText (hay needle : String) : Prop :=
  needle.data <:+: hay.data

instance (hay needle : String) : Decidable (containsText hay needle) :=
  List.decidableInfix _ _

/-- Test corpus for the spec's neighbor-expansion example: five segments
with start times 0, 10, 20, 30, 40. -/
def segs5 : List Segment :=
  [⟨0, 10, "s0"⟩, ⟨10, 20, "s1"⟩, ⟨20, 30, "s2"⟩, ⟨30, 40, "s3"⟩, ⟨40, 50, "s4"⟩]

/-- Test corpus of three segments used for the generation-fallback
scenario. -/
def segs3 : List Segment :=
  [⟨0, 10, "t0"⟩, ⟨10, 20, "t1"⟩, ⟨20, 30, "t2"⟩]

/-- The core retrieved set for the query against `segs3` with cosine scores
`[0, 5, 1]`, no lexical backend, `top_k = 1` and `pool_k = 40`. -/
def coreEx : List Retrieved :=
  [{ rank := 1, i := 1, start := 10, stop := 20, text := "t1",
     hybrid := 0.65, cosine := 5, bm25 := 0 }]

/-- The result of `answer_question` for that query when the generation call
fails with message `boom`. -/
def resEx : AnswerResult :=
  { answer := "(Gemini error: boom)\n\nBest matching transcript snippet:\n\nt0",
    score := 0.65, timestamp := 0, segments := coreEx, mode := "retrieval-only" }

theorem foldl_min_le_init (l : List ℚ) : ∀ a : ℚ, l.foldl min a ≤ a := by
  induction l with
  | nil => intro a; simp
  | cons x xs ih =>
    intro a
    calc xs.foldl min (min a x) ≤ min a x := ih _
    _ ≤ a := min_le_left _ _

theorem foldl_min_le_mem (l : List ℚ) : ∀ a b : ℚ, b ∈ l → l.foldl min a ≤ b := by
  induction l with
  | nil => simp
  | cons x xs ih =>
    intro a b hb
    rcases List.mem_cons.mp hb with rfl | hb
    · exact le_trans (foldl_min_le_init xs (min a b)) (min_le_right _ _)
    · exact ih _ _ hb

theorem foldl_min_mem (l : List ℚ) : ∀ a : ℚ, l.foldl min a = a ∨ l.foldl min a ∈ l := by
  induction l with
  | nil => intro a; exact Or.inl rfl
  | cons x xs ih =>
    intro a
    rcases ih (min a x) with h | h
    · rcases min_choice a x with hc | hc
      · exact Or.inl (by rw [List.foldl_cons, h, hc])
      · exact Or.inr (by rw [List.foldl_cons, h, hc]; exact List.mem_cons_self _ _)
    · exact Or.inr (List.mem_cons_of_mem _ (by rw [List.foldl_cons]; exact h))

theorem init_le_foldl_max (l : List ℚ) : ∀ a : ℚ, a ≤ l.foldl max a := by
  induction l with
  | nil => intro a; simp
  | cons x xs ih =>
    intro a
    calc a ≤ max a x := le_max_left _ _
    _ ≤ xs.foldl max (max a x) := ih _

theorem mem_le_foldl_max (l : List ℚ) : ∀ a b : ℚ, b ∈ l → b ≤ l.foldl max a := by
  induction l with
  | nil => simp
  | cons x xs ih =>
    intro a b hb
    rcases List.mem_cons.mp hb with rfl | hb
    · exact le_trans (le_max_right _ _) (init_le_foldl_max xs (max a b))
    · exact ih _ _ hb

theorem listMin_le_of_mem {l : List ℚ} {a : ℚ} (h : a ∈ l) : listMin l ≤ a := by
  cases l with
  | nil => cases h
  | cons x xs =>
    rcases List.mem_cons.mp h with rfl | h
    · exact foldl_min_le_init xs a
    · exact foldl_min_le_mem xs x a h

theorem le_listMax_of_mem {l : List ℚ} {a : ℚ} (h : a ∈ l) : a ≤ listMax l := by
  cases l with
  | nil => cases h
  | cons x xs =>
    rcases List.mem_cons.mp h with rfl | h
    · exact init_le_foldl_max xs a
    · exact mem_le_foldl_max xs x a h

theorem const_of_max_le_min {l : List ℚ} (h : listMax l ≤ listMin l) {a : ℚ}
    (ha : a ∈ l) : a = listMin l :=
  le_antisymm (le_trans (le_listMax_of_mem ha) h) (listMin_le_of_mem ha)

theorem normalize_length (l : List ℚ) : (normalize l).length = l.length := by
  unfold normalize
  split
  · rfl
  · dsimp only
    split <;> simp

theorem getD_mem {l : List ℚ} {i : ℕ} (hi : i < l.length) : l.getD i 0 ∈ l := by
  rw [List.getD_eq_getElem l 0 hi]
  exact List.getElem_mem hi

theorem min_lt_max_of_not_le {l : List ℚ} (h : ¬ listMax l ≤ listMin l) :
    listMin l < listMax l :=
  lt_of_not_le h

theorem ne_nil_of_not_max_le_min {l : List ℚ} (h : ¬ listMax l ≤ listMin l) :
    l ≠ [] := by
  intro hl
  subst hl
  exact h le_rfl

theorem normalize_getD {l : List ℚ} (h : ¬ listMax l ≤ listMin l) {i : ℕ}
    (hi : i < l.length) :
    (normalize l).getD i 0 = (l.getD i 0 - listMin l) / (listMax l - listMin l) := by
  have hne : l ≠ [] := ne_nil_of_not_max_le_min h
  unfold normalize
  rw [if_neg (by simpa [List.isEmpty_iff] using hne)]
  rw [if_neg h]
  rw [List.getD_eq_getElem _ 0 (by simpa using hi), List.getElem_map,
    List.getD_eq_getElem l 0 hi]

theorem normalize_of_max_le_min {l : List ℚ} (h : listMax l ≤ listMin l) :
    normalize l = List.replicate l.length 0 := by
  unfold normalize
  split
  · rename_i hemp
    rw [List.isEmpty_iff] at hemp
    subst hemp
    rfl
  · rw [if_pos h]

theorem normalize_le_iff {l : List ℚ} {i j : ℕ} (hi : i < l.length)
    (hj : j < l.length) :
    (normalize l).getD j 0 ≤ (normalize l).getD i 0 ↔ l.getD j 0 ≤ l.getD i 0 := by
  by_cases h : listMax l ≤ listMin l
  · have hieq : l.getD i 0 = listMin l := const_of_max_le_min h (getD_mem hi)
    have hjeq : l.getD j 0 = listMin l := const_of_max_le_min h (getD_mem hj)
    rw [normalize_of_max_le_min h, hieq, hjeq]
    have hzi : (List.replicate l.length (0 : ℚ)).getD i 0 = 0 := by
      rw [List.getD_eq_getElem _ 0 (by simpa using hi)]
      simp
    have hzj : (List.replicate l.length (0 : ℚ)).getD j 0 = 0 := by
      rw [List.getD_eq_getElem _ 0 (by simpa using hj)]
      simp
    rw [hzi, hzj]
    simp
  · have hpos : 0 < listMax l - listMin l := by
      have := min_lt_max_of_not_le h
      linarith
    rw [normalize_getD h hi, normalize_getD h hj, div_le_div_iff_of_pos_right hpos,
      sub_le_sub_iff_right]

/-- C4: for every non-empty score vector every component of its min-max
normalization lies in `[0,1]`; a vector with `max == min` normalizes to
the all-zero vector of its own length; and the empty vector normalizes to
the empty vector. -/
theorem normalize_spec :
    (∀ l : List ℚ, l ≠ [] → ∀ x ∈ normalize l, 0 ≤ x ∧ x ≤ 1)
    ∧ (∀ l : List ℚ, listMax l = listMin l → normalize l = List.replicate l.length 0)
    ∧ normalize [] = [] := by
  refine ⟨?_, ?_, rfl⟩
  · intro l hne x hx
    by_cases h : listMax l ≤ listMin l
    · rw [normalize_of_max_le_min h] at hx
      rw [List.eq_of_mem_replicate hx]
      exact ⟨le_rfl, zero_le_one⟩
    · have hpos : 0 < listMax l - listMin l := by
        have := min_lt_max_of_not_le h
        linarith
      unfold normalize at hx
      rw [if_neg (by simpa [List.isEmpty_iff] using hne), if_neg h] at hx
      rcases List.mem_map.mp hx with ⟨a, ha, rfl⟩
      constructor
      · exact div_nonneg (by have := listMin_le_of_mem ha; linarith) (le_of_lt hpos)
      · rw [div_le_one hpos]
        have := le_listMax_of_mem ha
        linarith
  · intro l h
    exact normalize_of_max_le_min (le_of_eq h)

/-- Witness for C4 at the concrete vectors `[0.9, 0.1]`, `[42, 42]` and
`[]`. -/
theorem normalize_spec_witness :
    (0 ≤ (normalize [0.9, 0.1]).getD 0 0 ∧ (normalize [0.9, 0.1]).getD 0 0 ≤ 1)
    ∧ normalize [42, 42] = List.replicate ([42, 42] : List ℚ).length 0
    ∧ normalize [] = [] :=
  ⟨normalize_spec.1 [0.9, 0.1] (by simp) _ (getD_mem (by simp [normalize_length])),
   normalize_spec.2.1 [42, 42] (by simp [listMax, listMin]),
   normalize_spec.2.2⟩

theorem hybridVec_length_some {alpha : ℚ} {cos bm : List ℚ} (h : bm.length = cos.length) :
    (hybridVec alpha cos (some bm)).length = cos.length := by
  simp [hybridVec, normalize_length, h]

theorem hybridVec_length_none (alpha : ℚ) (cos : List ℚ) :
    (hybridVec alpha cos none).length = cos.length := by
  simp [hybridVec, normalize_length]

theorem hybridVec_getD_some {alpha : ℚ} {cos bm : List ℚ} (h : bm.length = cos.length)
    {i : ℕ} (hi : i < cos.length) :
    (hybridVec alpha cos (some bm)).getD i 0 =
      alpha * (normalize cos).getD i 0 + (1 - alpha) * (normalize bm).getD i 0 := by
  have h1 : i < (normalize cos).length := by rw [normalize_length]; exact hi
  have h2 : i < (normalize bm).length := by rw [normalize_length, h]; exact hi
  have hz : i < (hybridVec alpha cos (some bm)).length := by
    rw [hybridVec_length_some h]; exact hi
  rw [List.getD_eq_getElem _ 0 hz, List.getD_eq_getElem _ 0 h1, List.getD_eq_getElem _ 0 h2]
  simp only [hybridVec]
  rw [List.getElem_zipWith]

theorem hybridVec_getD_none {alpha : ℚ} {cos : List ℚ} {i : ℕ} (hi : i < cos.length) :
    (hybridVec alpha cos none).getD i 0 = alpha * (normalize cos).getD i 0 := by
  have h1 : i < (normalize cos).length := by rw [normalize_length]; exact hi
  have hz : i < (hybridVec alpha cos none).length := by
    rw [hybridVec_length_none]; exact hi
  rw [List.getD_eq_getElem _ 0 hz, List.getD_eq_getElem _ 0 h1]
  simp only [hybridVec]
  rw [List.getElem_zipWith]
  simp

theorem foldl_min_replicate_zero : ∀ n : ℕ, (List.replicate n (0 : ℚ)).foldl min 0 = 0
  | 0 => rfl
  | n + 1 => by
    rw [List.replicate_succ, List.foldl_cons, min_self]
    exact foldl_min_replicate_zero n

theorem foldl_max_replicate_zero : ∀ n : ℕ, (List.replicate n (0 : ℚ)).foldl max 0 = 0
  | 0 => rfl
  | n + 1 => by
    rw [List.replicate_succ, List.foldl_cons, max_self]
    exact foldl_max_replicate_zero n

theorem normalize_replicate_zero (n : ℕ) :
    normalize (List.replicate n 0) = List.replicate n 0 := by
  cases n with
  | zero => rfl
  | succ m =>
    have h : listMax (List.replicate (m + 1) (0 : ℚ)) ≤
        listMin (List.replicate (m + 1) (0 : ℚ)) := by
      show (List.replicate m (0 : ℚ)).foldl max 0 ≤ (List.replicate m (0 : ℚ)).foldl min 0
      rw [foldl_min_replicate_zero m, foldl_max_replicate_zero m]
    rw [normalize_of_max_le_min h, List.length_replicate]

theorem getD_replicate_zero (n i : ℕ) : (List.replicate n (0 : ℚ)).getD i 0 = 0 := by
  rw [List.getD_eq_getElem?_getD]
  rcases lt_or_ge i n with h | h
  · rw [List.getElem?_eq_getElem (by simpa using h)]
    simp
  · rw [List.getElem?_eq_none (by simpa using h)]
    rfl

/-- C1: for every question the hybrid vector of `_hybrid_search` equals
`alpha * minmax(cosine) + (1 - alpha) * minmax(lexical)` componentwise
(in both the BM25-present and BM25-absent branches), and at
`alpha = 0.65`, cosine `[0.9, 0.1]`, lexical `[0.0, 5.0]` the hybrid
scores are `[0.65, 0.35]` and segment `0` ranks first. -/
theorem hybrid_formula_spec :
    (∀ (alpha : ℚ) (cos bm : List ℚ), bm.length = cos.length → ∀ i, i < cos.length →
      (hybridVec alpha cos (some bm)).getD i 0 =
        alpha * (normalize cos).getD i 0 + (1 - alpha) * (normalize bm).getD i 0)
    ∧ (∀ (alpha : ℚ) (cos : List ℚ), ∀ i, i < cos.length →
      (hybridVec alpha cos none).getD i 0 =
        alpha * (normalize cos).getD i 0 +
          (1 - alpha) * (normalize (lexicalScores none cos.length)).getD i 0)
    ∧ hybridVec HYBRID_ALPHA [0.9, 0.1] (some [0, 5]) = [0.65, 0.35]
    ∧ topKSelect (hybridVec HYBRID_ALPHA [0.9, 0.1] (some [0, 5])) 2 = some [0, 1] := by
  refine ⟨?_, ?_, ?_, ?_⟩
  · intro alpha cos bm h i hi
    exact hybridVec_getD_some h hi
  · intro alpha cos i hi
    rw [hybridVec_getD_none hi]
    show _ = _ + (1 - alpha) * (normalize (List.replicate cos.length 0)).getD i 0
    rw [normalize_replicate_zero, getD_replicate_zero]
    ring
  · norm_num [hybridVec, HYBRID_ALPHA, normalize, listMin, listMax, min_def, max_def]
  · norm_num [topKSelect, topIdxList, hybridVec, HYBRID_ALPHA, normalize, listMin, listMax,
      min_def, max_def, List.insertionSort, List.orderedInsert, hybRel, List.range_succ]

/-- Witness for C1 at `alpha = 0.65`, cosine `[0.9, 0.1]`,
lexical `[0, 5]`, component `0`. -/
theorem hybrid_formula_spec_witness :
    (hybridVec 0.65 [0.9, 0.1] (some [0, 5])).getD 0 0 =
      0.65 * (normalize [0.9, 0.1]).getD 0 0 + (1 - 0.65) * (normalize [0, 5]).getD 0 0
    ∧ hybridVec HYBRID_ALPHA [0.9, 0.1] (some [0, 5]) = [0.65, 0.35]
    ∧ topKSelect (hybridVec HYBRID_ALPHA [0.9, 0.1] (some [0, 5])) 2 = some [0, 1] :=
  ⟨hybrid_formula_spec.1 0.65 [0.9, 0.1] [0, 5] (by simp) 0 (by simp),
   hybrid_formula_spec.2.2.1, hybrid_formula_spec.2.2.2⟩

/-- C9: with `alpha = 1` the hybrid scores order segments exactly as the
raw cosine scores do, and with `alpha = 0` exactly as the raw lexical
scores do, because min-max normalization preserves order. -/
theorem alpha_extreme_ranking_spec :
    ∀ (cos bm : List ℚ), bm.length = cos.length → ∀ i j, i < cos.length → j < cos.length →
      (((hybridVec 1 cos (some bm)).getD j 0 ≤ (hybridVec 1 cos (some bm)).getD i 0 ↔
          cos.getD j 0 ≤ cos.getD i 0)
      ∧ ((hybridVec 0 cos (some bm)).getD j 0 ≤ (hybridVec 0 cos (some bm)).getD i 0 ↔
          bm.getD j 0 ≤ bm.getD i 0)) := by
  intro cos bm h i j hi hj
  have hbi : i < bm.length := by rw [h]; exact hi
  have hbj : j < bm.length := by rw [h]; exact hj
  constructor
  · rw [hybridVec_getD_some h hi, hybridVec_getD_some h hj]
    simp only [one_mul, sub_self, zero_mul, add_zero]
    exact normalize_le_iff hi hj
  · rw [hybridVec_getD_some h hi, hybridVec_getD_some h hj]
    simp only [zero_mul, sub_zero, one_mul, zero_add]
    exact normalize_le_iff hbi hbj

/-- Witness for C9 at cosine `[1, 2]`, lexical `[3, 4]`, components `0`
and `1`. -/
theorem alpha_extreme_ranking_spec_witness :
    ((hybridVec 1 [1, 2] (some [3, 4])).getD 1 0 ≤ (hybridVec 1 [1, 2] (some [3, 4])).getD 0 0 ↔
        ([1, 2] : List ℚ).getD 1 0 ≤ ([1, 2] : List ℚ).getD 0 0)
    ∧ ((hybridVec 0 [1, 2] (some [3, 4])).getD 1 0 ≤ (hybridVec 0 [1, 2] (some [3, 4])).getD 0 0 ↔
        ([3, 4] : List ℚ).getD 1 0 ≤ ([3, 4] : List ℚ).getD 0 0) :=
  alpha_extreme_ranking_spec [1, 2] [3, 4] (by simp) 0 1 (by simp) (by simp)

/-- C7: when the lexical backend is absent its score vector is the all-zero
vector of the corpus length (no failure), and the hybrid ranking coincides
with the pure cosine ranking. -/
theorem lexical_disabled_spec :
    ∀ (n : ℕ) (cos : List ℚ),
      ((lexicalScores none n).length = n ∧ ∀ x ∈ lexicalScores none n, x = 0)
      ∧ (∀ i j, i < cos.length → j < cos.length →
        ((hybridVec HYBRID_ALPHA cos none).getD j 0 ≤
            (hybridVec HYBRID_ALPHA cos none).getD i 0 ↔
          cos.getD j 0 ≤ cos.getD i 0)) := by
  intro n cos
  refine ⟨⟨by simp [lexicalScores], ?_⟩, ?_⟩
  · intro x hx
    exact List.eq_of_mem_replicate hx
  · intro i j hi hj
    rw [hybridVec_getD_none hi, hybridVec_getD_none hj,
      mul_le_mul_iff_of_pos_left (by norm_num [HYBRID_ALPHA] : (0 : ℚ) < HYBRID_ALPHA)]
    exact normalize_le_iff hi hj

/-- Witness for C7 at corpus length `3` and cosine `[2, 1]`. -/
theorem lexical_disabled_spec_witness :
    (lexicalScores none 3).length = 3
    ∧ ((hybridVec HYBRID_ALPHA [2, 1] none).getD 1 0 ≤
          (hybridVec HYBRID_ALPHA [2, 1] none).getD 0 0 ↔
        ([2, 1] : List ℚ).getD 1 0 ≤ ([2, 1] : List ℚ).getD 0 0) :=
  ⟨(lexical_disabled_spec 3 [2, 1]).1.1,
   (lexical_disabled_spec 3 [2, 1]).2 0 1 (by simp) (by simp)⟩

theorem topIdxList_sorted (H : List ℚ) (pool_k : ℕ) :
    (topIdxList H pool_k).Pairwise (hybRel H) :=
  (List.sorted_insertionSort (hybRel H) (List.range H.length)).sublist
    (List.take_sublist _ _)

theorem topIdxList_nodup (H : List ℚ) (pool_k : ℕ) : (topIdxList H pool_k).Nodup :=
  ((List.perm_insertionSort (hybRel H) (List.range H.length)).nodup_iff.mpr
    (List.nodup_range _)).sublist (List.take_sublist _ _)

theorem topIdxList_mem {H : List ℚ} {pool_k i : ℕ} (h : i ∈ topIdxList H pool_k) :
    i < H.length := by
  have h2 := List.mem_of_mem_take h
  rw [List.mem_insertionSort] at h2
  exact List.mem_range.mp h2

theorem topIdxList_length (H : List ℚ) (pool_k : ℕ) :
    (topIdxList H pool_k).length = min pool_k H.length := by
  unfold topIdxList
  rw [List.length_take, List.length_insertionSort, List.length_range]
  omega

theorem topIdxList_perm_range {H : List ℚ} {pool_k : ℕ} (h : H.length ≤ pool_k) :
    List.Perm (topIdxList H pool_k) (List.range H.length) := by
  unfold topIdxList
  rw [min_eq_right h,
    List.take_of_length_le (by rw [List.length_insertionSort, List.length_range])]
  exact List.perm_insertionSort _ _

theorem hybRel_le {H : List ℚ} {i j : ℕ} (h : hybRel H i j) :
    H.getD j 0 ≤ H.getD i 0 := by
  rcases h with h | ⟨h, _⟩
  · exact le_of_lt h
  · exact le_of_eq h.symm

/-- C2 (amended): for every non-empty hybrid score vector and every
`pool_k` the Top-K Selector returns `min pool_k n` distinct corpus indices
sorted descending by hybrid score, and the whole corpus (a permutation of
`range n`) when `pool_k ≥ n`; on an empty corpus it raises instead of
returning the empty corpus (see the counterexample). -/
theorem topK_selector_spec :
    ∀ (hybrid : List ℚ) (pool_k : ℕ), hybrid ≠ [] →
      ∃ idx, topKSelect hybrid pool_k = some idx ∧
        idx.length = min pool_k hybrid.length ∧
        idx.Nodup ∧
        (idx.map (fun i => hybrid.getD i 0)).Pairwise (fun a b => b ≤ a) ∧
        (∀ i ∈ idx, i < hybrid.length) ∧
        (hybrid.length ≤ pool_k → List.Perm idx (List.range hybrid.length)) := by
  intro hybrid pool_k hne
  refine ⟨topIdxList hybrid pool_k, ?_, topIdxList_length _ _, topIdxList_nodup _ _,
    ?_, fun i h => topIdxList_mem h, fun h => topIdxList_perm_range h⟩
  · unfold topKSelect
    rw [if_neg (by simpa using hne)]
  · exact (topIdxList_sorted hybrid pool_k).map _ (fun a b h => hybRel_le h)

/-- Counterexample to C2 as stated: on an empty corpus with
`pool_k = 1 > 0 = corpus size` the claim demands the entire (empty) corpus
back, but `np.argpartition(-hybrid, -1)` raises
`ValueError: kth(=-1) out of bounds (0)` (modelled `none`). -/
theorem topK_selector_empty_corpus : topKSelect [] 1 = none := rfl

/-- Witness for C2 at the hybrid vector `[5, 2, 9]` and `pool_k = 2`. -/
theorem topK_selector_spec_witness :
    ∃ idx, topKSelect [5, 2, 9] 2 = some idx ∧
      idx.length = min 2 ([5, 2, 9] : List ℚ).length ∧
      idx.Nodup ∧
      (idx.map (fun i => ([5, 2, 9] : List ℚ).getD i 0)).Pairwise (fun a b => b ≤ a) ∧
      (∀ i ∈ idx, i < ([5, 2, 9] : List ℚ).length) ∧
      (([5, 2, 9] : List ℚ).length ≤ 2 → List.Perm idx (List.range ([5, 2, 9] : List ℚ).length)) :=
  topK_selector_spec [5, 2, 9] 2 (by simp)

theorem mem_windowIdxs {n c w j : ℕ} :
    j ∈ windowIdxs n c w ↔ j < n ∧ (c : ℤ) - w ≤ j ∧ (j : ℤ) ≤ c + w := by
  unfold windowIdxs
  rw [List.mem_filterMap]
  constructor
  · rintro ⟨d, hd, hif⟩
    rw [List.mem_range] at hd
    split at hif
    · rename_i hcond
      rw [Option.some_inj] at hif
      subst hif
      refine ⟨?_, ?_, ?_⟩ <;> omega
    · simp at hif
  · rintro ⟨hjn, h1, h2⟩
    refine ⟨((j : ℤ) + w - c).toNat, ?_, ?_⟩
    · rw [List.mem_range]
      omega
    · rw [if_pos (by constructor <;> omega)]
      rw [Option.some_inj]
      omega

theorem mem_addWindow (js : List ℕ) : ∀ (acc : List ℕ) (x : ℕ),
    x ∈ addWindow acc js ↔ x ∈ acc ∨ x ∈ js := by
  induction js with
  | nil =>
    intro acc x
    simp [addWindow]
  | cons j js ih =>
    intro acc x
    show x ∈ addWindow (if j ∈ acc then acc else acc ++ [j]) js ↔ _
    rw [ih]
    by_cases hj : j ∈ acc
    · rw [if_pos hj]
      simp only [List.mem_cons]
      constructor
      · rintro (h | h)
        · exact Or.inl h
        · exact Or.inr (Or.inr h)
      · rintro (h | rfl | h)
        · exact Or.inl h
        · exact Or.inl hj
        · exact Or.inr h
    · rw [if_neg hj]
      simp only [List.mem_append, List.mem_singleton, List.mem_cons]
      tauto

theorem nodup_addWindow (js : List ℕ) : ∀ acc : List ℕ, acc.Nodup →
    (addWindow acc js).Nodup := by
  induction js with
  | nil =>
    intro acc h
    exact h
  | cons j js ih =>
    intro acc h
    show (addWindow (if j ∈ acc then acc else acc ++ [j]) js).Nodup
    apply ih
    by_cases hj : j ∈ acc
    · rw [if_pos hj]
      exact h
    · rw [if_neg hj]
      simp [List.nodup_append, h, hj]

theorem mem_pickedKeys (core : List ℕ) : ∀ (n w : ℕ) (acc : List ℕ) (x : ℕ),
    x ∈ pickedKeys n w acc core ↔ x ∈ acc ∨ ∃ c ∈ core, x ∈ windowIdxs n c w := by
  induction core with
  | nil =>
    intro n w acc x
    simp [pickedKeys]
  | cons c cs ih =>
    intro n w acc x
    show x ∈ pickedKeys n w (addWindow acc (windowIdxs n c w)) cs ↔ _
    rw [ih, mem_addWindow]
    constructor
    · rintro ((h | h) | ⟨d, hd, h⟩)
      · exact Or.inl h
      · exact Or.inr ⟨c, List.mem_cons_self _ _, h⟩
      · exact Or.inr ⟨d, List.mem_cons_of_mem _ hd, h⟩
    · rintro (h | ⟨d, hd, h⟩)
      · exact Or.inl (Or.inl h)
      · rcases List.mem_cons.mp hd with rfl | hd
        · exact Or.inl (Or.inr h)
        · exact Or.inr ⟨d, hd, h⟩

theorem nodup_pickedKeys (core : List ℕ) : ∀ (n w : ℕ) (acc : List ℕ), acc.Nodup →
    (pickedKeys n w acc core).Nodup := by
  induction core with
  | nil =>
    intro n w acc h
    exact h
  | cons c cs ih =>
    intro n w acc h
    exact ih n w _ (nodup_addWindow _ _ h)

theorem expandNeighbors_map_fst (segments : List Segment) (w : ℕ) (coreIdx : List ℕ) :
    (expandNeighbors segments w coreIdx).map Prod.fst =
      List.insertionSort (startRel segments) (pickedKeys segments.length w [] coreIdx) := by
  unfold expandNeighbors
  rw [List.map_map]
  exact List.map_id _

theorem mem_expandNeighbors {segments : List Segment} {w : ℕ} {coreIdx : List ℕ}
    {p : ℕ × Segment} (hp : p ∈ expandNeighbors segments w coreIdx) :
    ∃ c ∈ coreIdx, p.1 ∈ windowIdxs segments.length c w := by
  unfold expandNeighbors at hp
  rcases List.mem_map.mp hp with ⟨j, hj, rfl⟩
  rw [List.mem_insertionSort] at hj
  rcases (mem_pickedKeys _ _ _ _ _).mp hj with h | h
  · cases h
  · exact h

theorem expandNeighbors_sorted (segments : List Segment) (w : ℕ) (coreIdx : List ℕ) :
    ((expandNeighbors segments w coreIdx).map (fun p => p.2.start)).Pairwise (· ≤ ·) := by
  unfold expandNeighbors
  rw [List.map_map]
  exact (List.sorted_insertionSort (startRel segments)
    (pickedKeys segments.length w [] coreIdx)).map _ (fun a b h => h)

theorem expandNeighbors_nodup (segments : List Segment) (w : ℕ) (coreIdx : List ℕ) :
    ((expandNeighbors segments w coreIdx).map Prod.fst).Nodup := by
  rw [expandNeighbors_map_fst]
  exact (List.perm_insertionSort _ _).nodup_iff.mpr
    (nodup_pickedKeys _ _ _ _ List.nodup_nil)

theorem core_mem_windowIdxs {n c w : ℕ} (hc : c < n) : c ∈ windowIdxs n c w :=
  mem_windowIdxs.mpr ⟨hc, by omega, by omega⟩

theorem mem_expandNeighbors_of_core {segments : List Segment} (w : ℕ) {coreIdx : List ℕ}
    {c : ℕ} (hc : c ∈ coreIdx) (hlt : c < segments.length) :
    c ∈ (expandNeighbors segments w coreIdx).map Prod.fst := by
  rw [expandNeighbors_map_fst, List.mem_insertionSort]
  exact (mem_pickedKeys _ _ _ _ _).mpr (Or.inr ⟨c, hc, core_mem_windowIdxs hlt⟩)

theorem expandNeighbors_ne_nil {segments : List Segment} {w : ℕ} {coreIdx : List ℕ}
    (hne : coreIdx ≠ []) (hval : ∀ c ∈ coreIdx, c < segments.length) :
    expandNeighbors segments w coreIdx ≠ [] := by
  rcases List.exists_cons_of_ne_nil hne with ⟨c, cs, rfl⟩
  intro hemp
  have hm := mem_expandNeighbors_of_core w (List.mem_cons_self c cs)
    (hval c (List.mem_cons_self c cs))
  rw [hemp] at hm
  cases hm

/-- C3: the Neighbor Expander output has no duplicate index, every output
index is in bounds and within `w` of some core index, the output is sorted
ascending by start time, and on the 5-segment corpus with starts
`[0,10,20,30,40]`, core index `2` and `w = 1` it is exactly the segments
with indices `1, 2, 3` in start order. -/
theorem expand_neighbors_spec :
    (∀ (segments : List Segment) (w : ℕ) (coreIdx : List ℕ), coreIdx ≠ [] →
      (∀ c ∈ coreIdx, c < segments.length) →
      ((expandNeighbors segments w coreIdx).map Prod.fst).Nodup
      ∧ (∀ p ∈ expandNeighbors segments w coreIdx, p.1 < segments.length ∧
          ∃ c ∈ coreIdx, (c : ℤ) - w ≤ p.1 ∧ (p.1 : ℤ) ≤ c + w)
      ∧ ((expandNeighbors segments w coreIdx).map (fun p => p.2.start)).Pairwise (· ≤ ·))
    ∧ expandNeighbors segs5 1 [2] =
        [(1, ⟨10, 20, "s1"⟩), (2, ⟨20, 30, "s2"⟩), (3, ⟨30, 40, "s3"⟩)] := by
  constructor
  · intro segments w coreIdx _ _
    refine ⟨expandNeighbors_nodup _ _ _, ?_, expandNeighbors_sorted _ _ _⟩
    intro p hp
    rcases mem_expandNeighbors hp with ⟨c, hc, hw⟩
    rcases mem_windowIdxs.mp hw with ⟨h1, h2, h3⟩
    exact ⟨h1, c, hc, h2, h3⟩
  · decide

/-- Witness for C3 at the 5-segment example corpus. -/
theorem expand_neighbors_spec_witness :
    ((expandNeighbors segs5 1 [2]).map Prod.fst).Nodup
    ∧ ((expandNeighbors segs5 1 [2]).map (fun p => p.2.start)).Pairwise (· ≤ ·)
    ∧ expandNeighbors segs5 1 [2] =
        [(1, ⟨10, 20, "s1"⟩), (2, ⟨20, 30, "s2"⟩), (3, ⟨30, 40, "s3"⟩)] :=
  ⟨(expand_neighbors_spec.1 segs5 1 [2] (by simp) (by decide)).1,
   (expand_neighbors_spec.1 segs5 1 [2] (by simp) (by decide)).2.2,
   expand_neighbors_spec.2⟩

theorem zip_map_self (l : List ℕ) (f g k : ℕ → ℚ) :
    l.zip ((l.map f).zip ((l.map g).zip (l.map k))) =
      l.map (fun i => (i, f i, g i, k i)) := by
  induction l with
  | nil => rfl
  | cons x xs ih => simp [ih]

theorem hybridSearch_eq (alpha : ℚ) (cos : List ℚ) (bm : Option (List ℚ)) (pool_k : ℕ) :
    hybridSearch alpha cos bm pool_k =
      (topKSelect (hybridVec alpha cos bm) pool_k).map (fun idx =>
        (idx, idx.map (fun i => (hybridVec alpha cos bm).getD i 0),
          idx.map (fun i => cos.getD i 0),
          idx.map (fun i => (lexicalScores bm cos.length).getD i 0))) := by
  simp only [hybridSearch]
  cases topKSelect (hybridVec alpha cos bm) pool_k <;> rfl

theorem retrieveSegments_eq (segments : List Segment) (alpha : ℚ) (cos : List ℚ)
    (bm : Option (List ℚ)) (top_k pool_k : ℕ) :
    retrieveSegments segments alpha cos bm top_k pool_k =
      (topKSelect (hybridVec alpha cos bm) pool_k).map (fun idx =>
        ((idx.enum.map (fun p =>
          ({ rank := p.1 + 1, i := p.2,
             start := (segments.getD p.2 default).start,
             stop := (segments.getD p.2 default).stop,
             text := (segments.getD p.2 default).text,
             hybrid := (hybridVec alpha cos bm).getD p.2 0,
             cosine := cos.getD p.2 0,
             bm25 := (lexicalScores bm cos.length).getD p.2 0 } : Retrieved))).take
          top_k)) := by
  unfold retrieveSegments
  rw [hybridSearch_eq]
  cases topKSelect (hybridVec alpha cos bm) pool_k with
  | none => rfl
  | some idx =>
    show some _ = some _
    rw [Option.some_inj, zip_map_self, List.enum_map, List.map_map]
    rfl

theorem topKSelect_some {H : List ℚ} {pool_k : ℕ} {idx : List ℕ}
    (h : topKSelect H pool_k = some idx) : idx = topIdxList H pool_k := by
  unfold topKSelect at h
  split at h
  · cases h
  · exact (Option.some_inj.mp h).symm

theorem retrieveSegments_some {segments : List Segment} {alpha : ℚ} {cos : List ℚ}
    {bm : Option (List ℚ)} {top_k pool_k : ℕ} {core : List Retrieved}
    (h : retrieveSegments segments alpha cos bm top_k pool_k = some core) :
    core = (((topIdxList (hybridVec alpha cos bm) pool_k).enum.map (fun p =>
        ({ rank := p.1 + 1, i := p.2,
           start := (segments.getD p.2 default).start,
           stop := (segments.getD p.2 default).stop,
           text := (segments.getD p.2 default).text,
           hybrid := (hybridVec alpha cos bm).getD p.2 0,
           cosine := cos.getD p.2 0,
           bm25 := (lexicalScores bm cos.length).getD p.2 0 } : Retrieved))).take
      top_k) := by
  rw [retrieveSegments_eq] at h
  cases htk : topKSelect (hybridVec alpha cos bm) pool_k with
  | none =>
    rw [htk] at h
    cases h
  | some idx =>
    rw [htk] at h
    rw [Option.map_some', Option.some_inj] at h
    rw [← h, topKSelect_some htk]

theorem mem_enum_snd {α : Type} {l : List α} {p : ℕ × α} (h : p ∈ l.enum) : p.2 ∈ l := by
  have h2 : p.2 ∈ l.enum.map Prod.snd := List.mem_map_of_mem Prod.snd h
  rwa [List.enum_map_snd] at h2

theorem retrieveSegments_i_mem {segments : List Segment} {alpha : ℚ} {cos : List ℚ}
    {bm : Option (List ℚ)} {top_k pool_k : ℕ} {core : List Retrieved}
    (h : retrieveSegments segments alpha cos bm top_k pool_k = some core) :
    ∀ r ∈ core, r.i ∈ topIdxList (hybridVec alpha cos bm) pool_k := by
  intro r hr
  rw [retrieveSegments_some h] at hr
  have hr2 := List.mem_of_mem_take hr
  rcases List.mem_map.mp hr2 with ⟨p, hp, rfl⟩
  exact mem_enum_snd hp

theorem retrieveSegments_i_lt {segments : List Segment} {alpha : ℚ} {cos : List ℚ}
    {bm : Option (List ℚ)} {top_k pool_k : ℕ} {core : List Retrieved}
    (h : retrieveSegments segments alpha cos bm top_k pool_k = some core) :
    ∀ r ∈ core, r.i < (hybridVec alpha cos bm).length :=
  fun r hr => topIdxList_mem (retrieveSegments_i_mem h r hr)

theorem hybridVec_length_le (alpha : ℚ) (cos : List ℚ) (bm : Option (List ℚ)) :
    (hybridVec alpha cos bm).length ≤ cos.length := by
  cases bm with
  | none =>
    rw [hybridVec_length_none]
  | some s =>
    show (List.zipWith _ (normalize cos) (normalize s)).length ≤ cos.length
    rw [List.length_zipWith, normalize_length]
    omega

theorem retrieveSegments_hybrids {segments : List Segment} {alpha : ℚ} {cos : List ℚ}
    {bm : Option (List ℚ)} {top_k pool_k : ℕ} {core : List Retrieved}
    (h : retrieveSegments segments alpha cos bm top_k pool_k = some core) :
    core.map (fun r => r.hybrid) =
      ((topIdxList (hybridVec alpha cos bm) pool_k).map
        (fun i => (hybridVec alpha cos bm).getD i 0)).take top_k := by
  rw [retrieveSegments_some h, ← List.map_take, List.map_map, List.map_take]
  have h2 : ((topIdxList (hybridVec alpha cos bm) pool_k).enum.map
      (fun p => (hybridVec alpha cos bm).getD p.2 0)) =
      ((topIdxList (hybridVec alpha cos bm) pool_k).map
        (fun i => (hybridVec alpha cos bm).getD i 0)) := by
    rw [show (fun (p : ℕ × ℕ) => (hybridVec alpha cos bm).getD p.2 0) =
      ((fun i => (hybridVec alpha cos bm).getD i 0) ∘ Prod.snd) from rfl]
    rw [← List.map_map, List.enum_map_snd]
  rw [show ((fun r => Retrieved.hybrid r) ∘ (fun p : ℕ × ℕ =>
      ({ rank := p.1 + 1, i := p.2,
         start := (segments.getD p.2 default).start,
         stop := (segments.getD p.2 default).stop,
         text := (segments.getD p.2 default).text,
         hybrid := (hybridVec alpha cos bm).getD p.2 0,
         cosine := cos.getD p.2 0,
         bm25 := (lexicalScores bm cos.length).getD p.2 0 } : Retrieved))) =
    (fun p : ℕ × ℕ => (hybridVec alpha cos bm).getD p.2 0) from rfl]
  rw [h2]

theorem retrieveSegments_hybrid_sorted {segments : List Segment} {alpha : ℚ}
    {cos : List ℚ} {bm : Option (List ℚ)} {top_k pool_k : ℕ} {core : List Retrieved}
    (h : retrieveSegments segments alpha cos bm top_k pool_k = some core) :
    (core.map (fun r => r.hybrid)).Pairwise (fun a b => b ≤ a) := by
  rw [retrieveSegments_hybrids h]
  have hs : ((topIdxList (hybridVec alpha cos bm) pool_k).map
      (fun i => (hybridVec alpha cos bm).getD i 0)).Pairwise (fun a b => b ≤ a) :=
    (topIdxList_sorted (hybridVec alpha cos bm) pool_k).map
      (fun i => (hybridVec alpha cos bm).getD i 0) (fun a b hab => hybRel_le hab)
  exact hs.sublist (List.take_sublist _ _)

theorem pyMin_spec {l : List ℚ} {m : ℚ} (h : pyMin l = some m) :
    m ∈ l ∧ ∀ t ∈ l, m ≤ t := by
  cases l with
  | nil => cases h
  | cons x xs =>
    have hm : xs.foldl min x = m := Option.some_inj.mp h
    constructor
    · rw [← hm]
      rcases foldl_min_mem xs x with h' | h'
      · rw [h']
        exact List.mem_cons_self _ _
      · exact List.mem_cons_of_mem _ h'
    · intro t ht
      rw [← hm]
      rcases List.mem_cons.mp ht with rfl | ht
      · exact foldl_min_le_init xs t
      · exact foldl_min_le_mem xs x t ht

theorem pyMin_ne_none {l : List ℚ} (h : l ≠ []) : ∃ m, pyMin l = some m := by
  rcases List.exists_cons_of_ne_nil h with ⟨x, xs, rfl⟩
  exact ⟨_, rfl⟩

theorem answerQuestion_some {segments : List Segment} {alpha : ℚ} {cos : List ℚ}
    {bm : Option (List ℚ)} {top_k pool_k w : ℕ} {llm : Except String String}
    {core : List Retrieved} {res : AnswerResult}
    (hr : retrieveSegments segments alpha cos bm top_k pool_k = some core)
    (hne : core ≠ [])
    (ha : answerQuestion segments alpha cos bm top_k pool_k w llm = some res) :
    res.segments = core ∧
    res.score = (core.headD default).hybrid ∧
    pyMin ((expandNeighbors segments w (core.map (fun r => r.i))).map
      (fun p => p.2.start)) = some res.timestamp := by
  unfold answerQuestion at ha
  rw [hr] at ha
  dsimp only at ha
  rw [if_neg (by simpa [List.isEmpty_iff] using hne)] at ha
  cases hpm : pyMin ((expandNeighbors segments w (core.map (fun r => r.i))).map
      (fun p => p.2.start)) with
  | none =>
    rw [hpm] at ha
    cases ha
  | some m =>
    rw [hpm] at ha
    cases llm with
    | ok txt =>
      rw [Option.some_inj] at ha
      rw [← ha]
      exact ⟨rfl, rfl, rfl⟩
    | error e =>
      rw [Option.some_inj] at ha
      rw [← ha]
      exact ⟨rfl, rfl, rfl⟩

theorem headD_le_of_pairwise {l : List ℚ} (hne : l ≠ [])
    (hp : l.Pairwise (fun a b => b ≤ a)) : ∀ t ∈ l, t ≤ l.headD 0 := by
  cases l with
  | nil => cases hne rfl
  | cons x xs =>
    intro t ht
    rcases List.mem_cons.mp ht with rfl | ht
    · exact le_rfl
    · exact (List.pairwise_cons.mp hp).1 t ht

/-- C8: for every answered query with a non-empty core, the result's
`timestamp` is the minimum start time of the neighbor-expanded window and
its `score` is the highest hybrid score among the retrieved segments. -/
theorem answer_fields_spec :
    ∀ (segments : List Segment) (alpha : ℚ) (cos : List ℚ) (bm : Option (List ℚ))
      (top_k pool_k w : ℕ) (llm : Except String String) (core : List Retrieved)
      (res : AnswerResult),
      retrieveSegments segments alpha cos bm top_k pool_k = some core →
      core ≠ [] →
      answerQuestion segments alpha cos bm top_k pool_k w llm = some res →
      (res.timestamp ∈ (expandNeighbors segments w (core.map (fun r => r.i))).map
          (fun p => p.2.start)
        ∧ (∀ t ∈ (expandNeighbors segments w (core.map (fun r => r.i))).map
            (fun p => p.2.start), res.timestamp ≤ t))
      ∧ (res.score ∈ core.map (fun r => r.hybrid)
        ∧ ∀ q ∈ core.map (fun r => r.hybrid), q ≤ res.score) := by
  intro segments alpha cos bm top_k pool_k w llm core res hr hne ha
  rcases answerQuestion_some hr hne ha with ⟨_, hscore, hts⟩
  rcases pyMin_spec hts with ⟨hmem, hle⟩
  refine ⟨⟨hmem, hle⟩, ?_, ?_⟩
  · rw [hscore]
    rcases List.exists_cons_of_ne_nil hne with ⟨c, cs, rfl⟩
    exact List.mem_cons_self _ _
  · intro q hq
    rw [hscore]
    have hp := retrieveSegments_hybrid_sorted hr
    have hh : (core.map (fun r => r.hybrid)).headD 0 = (core.headD default).hybrid := by
      rcases List.exists_cons_of_ne_nil hne with ⟨c, cs, rfl⟩
      rfl
    rw [← hh]
    exact headD_le_of_pairwise (by simpa using hne) hp q hq

/-- C10: the Neighbor Expander always returns a non-empty list containing
every (valid) core index, so `answer_question`'s `min` over the window and
its access to `windowed[0]` never fail: with a non-empty retrieved core the
whole call returns a result. -/
theorem expand_neighbors_total :
    (∀ (segments : List Segment) (w : ℕ) (coreIdx : List ℕ), coreIdx ≠ [] →
      (∀ c ∈ coreIdx, c < segments.length) →
      expandNeighbors segments w coreIdx ≠ []
      ∧ ∀ c ∈ coreIdx, c ∈ (expandNeighbors segments w coreIdx).map Prod.fst)
    ∧ (∀ (segments : List Segment) (alpha : ℚ) (cos : List ℚ) (bm : Option (List ℚ))
        (top_k pool_k w : ℕ) (llm : Except String String) (core : List Retrieved),
        cos.length = segments.length →
        retrieveSegments segments alpha cos bm top_k pool_k = some core →
        core ≠ [] →
        ∃ res, answerQuestion segments alpha cos bm top_k pool_k w llm = some res) := by
  constructor
  · intro segments w coreIdx hne hval
    exact ⟨expandNeighbors_ne_nil hne hval,
      fun c hc => mem_expandNeighbors_of_core w hc (hval c hc)⟩
  · intro segments alpha cos bm top_k pool_k w llm core hlen hr hne
    have hval : ∀ c ∈ core.map (fun r => r.i), c < segments.length := by
      intro c hc
      rcases List.mem_map.mp hc with ⟨r, hrm, rfl⟩
      calc r.i < (hybridVec alpha cos bm).length := retrieveSegments_i_lt hr r hrm
      _ ≤ cos.length := hybridVec_length_le alpha cos bm
      _ = segments.length := hlen
    have hwne : expandNeighbors segments w (core.map (fun r => r.i)) ≠ [] :=
      expandNeighbors_ne_nil (by simpa using hne) hval
    have hsne : (expandNeighbors segments w (core.map (fun r => r.i))).map
        (fun p => p.2.start) ≠ [] := by
      simpa using hwne
    rcases pyMin_ne_none hsne with ⟨m, hm⟩
    unfold answerQuestion
    rw [hr]
    dsimp only
    rw [if_neg (by simpa [List.isEmpty_iff] using hne), hm]
    cases llm with
    | ok txt => exact ⟨_, rfl⟩
    | error e => exact ⟨_, rfl⟩

theorem retrieveSegments_eval :
    retrieveSegments segs3 HYBRID_ALPHA [0, 5, 1] none 1 40 = some coreEx := by
  norm_num [retrieveSegments, hybridSearch, topKSelect, topIdxList, hybridVec, normalize,
    lexicalScores, listMin, listMax, min_def, max_def, HYBRID_ALPHA, List.insertionSort,
    List.orderedInsert, hybRel, List.range_succ, segs3, coreEx, List.enum, List.enumFrom,
    List.take_succ_cons, List.getD, List.getElem?_cons_succ, List.getElem?_cons_zero]

theorem answerQuestion_eval :
    answerQuestion segs3 HYBRID_ALPHA [0, 5, 1] none 1 40 1 (Except.error "boom") =
      some resEx := by
  norm_num [answerQuestion, retrieveSegments, hybridSearch, topKSelect, topIdxList, hybridVec,
    normalize, lexicalScores, listMin, listMax, min_def, max_def, HYBRID_ALPHA,
    List.insertionSort, List.orderedInsert, hybRel, List.range_succ, segs3, coreEx, resEx,
    expandNeighbors, pickedKeys, addWindow, windowIdxs, startRel, List.filterMap, pyMin,
    noMatchResult, List.getD, List.getElem?_cons_succ, List.getElem?_cons_zero, List.enum,
    List.enumFrom, List.take_succ_cons, List.head?, show ((2 : ℤ).toNat = 2) from rfl,
    show ((1 : ℤ).toNat = 1) from rfl, show ((0 : ℤ).toNat = 0) from rfl]
  rfl

/-- C5 (code bug): on an empty corpus `answer_question` does not return the
fixed no-match result; `np.argpartition(-hybrid, k - 1)` with `k = 0` raises
`ValueError` on the empty hybrid vector (and with an active BM25 backend
`BM25Okapi([])` already raises `ZeroDivisionError` in the constructor), so
the call ends in an exception (modelled `none`), never reaching the
`noMatchResult` branch. -/
theorem empty_corpus_raises :
    answerQuestion [] HYBRID_ALPHA [] none RETRIEVAL_TOPK RETRIEVAL_CANDIDATES
      NEIGHBOR_WINDOW (Except.error "e") = none
    ∧ answerQuestion [] HYBRID_ALPHA [] none RETRIEVAL_TOPK RETRIEVAL_CANDIDATES
      NEIGHBOR_WINDOW (Except.ok "answer") = none := by
  constructor <;> rfl

/-- C6 (code bug): when the generation call fails the mode is the fallback
tag `retrieval-only`, but the answer embeds `windowed[0]["text"]` — the
earliest-start segment of the neighbor-expanded window (`"t0"`) — and the
text of the top-ranked retrieved segment (`"t1"`) does not occur in the
answer at all, contradicting the claim. -/
theorem fallback_shows_window_head :
    answerQuestion segs3 HYBRID_ALPHA [0, 5, 1] none 1 40 1 (Except.error "boom") =
      some { answer := "(Gemini error: boom)\n\nBest matching transcript snippet:\n\nt0",
             score := 0.65, timestamp := 0, segments := coreEx, mode := "retrieval-only" }
    ∧ coreEx.map (fun r => r.text) = ["t1"]
    ∧ ¬ containsText "(Gemini error: boom)\n\nBest matching transcript snippet:\n\nt0" "t1"
    ∧ containsText "(Gemini error: boom)\n\nBest matching transcript snippet:\n\nt0" "t0" :=
  ⟨answerQuestion_eval, rfl, by decide, by decide⟩

/-- Witness for C8 at the concrete fallback query against `segs3`. -/
theorem answer_fields_spec_witness :
    (resEx.timestamp ∈ (expandNeighbors segs3 1 (coreEx.map (fun r => r.i))).map
        (fun p => p.2.start)
      ∧ (∀ t ∈ (expandNeighbors segs3 1 (coreEx.map (fun r => r.i))).map
          (fun p => p.2.start), resEx.timestamp ≤ t))
    ∧ (resEx.score ∈ coreEx.map (fun r => r.hybrid)
      ∧ ∀ q ∈ coreEx.map (fun r => r.hybrid), q ≤ resEx.score) :=
  answer_fields_spec segs3 HYBRID_ALPHA [0, 5, 1] none 1 40 1 (Except.error "boom")
    coreEx resEx retrieveSegments_eval (by simp [coreEx]) answerQuestion_eval

/-- Witness for C10 at the example corpora. -/
theorem expand_neighbors_total_witness :
    (expandNeighbors segs5 1 [2] ≠ []
      ∧ ∀ c ∈ [2], c ∈ (expandNeighbors segs5 1 [2]).map Prod.fst)
    ∧ ∃ res, answerQuestion segs3 HYBRID_ALPHA [0, 5, 1] none 1 40 1
        (Except.error "boom") = some res :=
  ⟨expand_neighbors_total.1 segs5 1 [2] (by simp) (by decide),
   expand_neighbors_total.2 segs3 HYBRID_ALPHA [0, 5, 1] none 1 40 1
     (Except.error "boom") coreEx rfl retrieveSegments_eval (by simp [coreEx])⟩

end CognifyAI
